import Mathlib

/- Verification of the textplots-rs rendering core against its design notes.
The embedding covers Scale (src/scale.rs), the data helpers (src/utils.rs)
and the Chart pipeline (src/lib.rs): sample-to-pixel mapping, per-shape
segment emission, y-range auto-scaling and construction checks.
Rust f32 values are modelled as exact rationals; u32/usize as Nat.
f32 has NaN, infinities and subnormals which Rat lacks; on every code path
modelled here the two semantics agree, as noted at each definition. -/

namespace Textplots

/-- Mirror of struct `Scale` (scale.rs:6-9): a domain interval and a range
interval, each stored as a (start, end) pair. -/
structure Scale where
  domain : ℚ × ℚ
  range : ℚ × ℚ

/-- Mirror of `Scale::linear` (scale.rs:18-24): affine map from domain to
range, clamped by `r.max(range.start).min(range.end)`. With a degenerate
domain Rust produces NaN or an infinity for `p`; `f32::max`/`f32::min`
then still land the result on a range endpoint, just as the Rat model
(division by zero yields 0) lands it on `range.start`. -/
def Scale.linear (s : Scale) (x : ℚ) : ℚ :=
  let p := (x - s.domain.1) / (s.domain.2 - s.domain.1)
  let r := s.range.1 + p * (s.range.2 - s.range.1)
  let r1 := max r s.range.1
  min r1 s.range.2

/-- Mirror of `Scale::inv_linear` (scale.rs:32-39). -/
def Scale.inv_linear (s : Scale) (i : ℚ) : ℚ :=
  let p := (i - s.range.1) / (s.range.2 - s.range.1)
  let d := s.domain.1 + p * (s.domain.2 - s.domain.1)
  let d1 := max d s.domain.1
  min d1 s.domain.2

/-- Mirror of `utils::interpolate` (utils.rs:11-23): walk consecutive pairs,
return the linear interpolation on the first half-open interval
`[p1.0, p2.0)` containing `x`, else `0.0`. -/
def interpolate : List (ℚ × ℚ) → ℚ → ℚ
  | p1 :: p2 :: rest, x =>
    if p1.1 ≤ x ∧ x < p2.1 then
      p1.2 + (x - p1.1) / (p2.1 - p1.1) * (p2.2 - p1.2)
    else interpolate (p2 :: rest) x
  | _, _ => 0

/-- Mirror of `utils::staircase` (utils.rs:31-42): as `interpolate`, but
returning the midpoint `(p1.1 + p2.1) / 2.0` on a hit. -/
def staircase : List (ℚ × ℚ) → ℚ → ℚ
  | p1 :: p2 :: rest, x =>
    if p1.1 ≤ x ∧ x < p2.1 then (p1.2 + p2.2) / 2
    else staircase (p2 :: rest) x
  | _, _ => 0

/-- One iteration of the sample loop of `utils::histogram` (utils.rs:49-58):
skip the sample when `y < min || y > max`, otherwise increment the bucket
`((y - min) / step) as usize` when it is in bounds. The `as usize` cast
truncates; on the nonnegative values reachable here that is `floor`
followed by `Int.toNat` (for `min = max` Rust gets `0.0 / 0.0 = NaN`,
which casts to 0, matching Rat division by zero). -/
def histStep (mn mx step : ℚ) (output : List ℕ) (p : ℚ × ℚ) : List ℕ :=
  if p.2 < mn ∨ p.2 > mx then output
  else
    let bucket_id := (⌊(p.2 - mn) / step⌋).toNat
    if bucket_id < output.length then output.set bucket_id (output.getD bucket_id 0 + 1)
    else output

/-- Mirror of `utils::histogram` (utils.rs:44-65): `bins + 1` counters,
`step = (max - min) / (bins + 1)`, one `histStep` per sample, then each
counter is labelled with its bucket's left boundary. -/
def histogram (data : List (ℚ × ℚ)) (mn mx : ℚ) (bins : ℕ) : List (ℚ × ℚ) :=
  let step := (mx - mn) / ((bins : ℚ) + 1)
  let output := data.foldl (histStep mn mx step) (List.replicate (bins + 1) 0)
  output.enum.map (fun q => (mn + (q.1 : ℚ) * step, (q.2 : ℚ)))

/-- Mirror of the per-sample translation in `Chart::figures` for discrete
shapes (lib.rs:486-497): `i = x_scale.linear(x).round() as u32`,
`j = y_scale.linear(y).round() as u32`, keep the pixel `(i, height - j)`
when `i <= width && j <= height`. `f32::round` rounds half away from zero;
on the nonnegative clamped scale outputs reachable from `figures` that
agrees with Mathlib `round` (half up), and `as u32` saturates below at 0
just as `Int.toNat` does. -/
def pixelOfSample (x_scale y_scale : Scale) (width height : ℕ) (p : ℚ × ℚ) :
    Option (ℕ × ℕ) :=
  let i := (round (x_scale.linear p.1)).toNat
  let j := (round (y_scale.linear p.2)).toNat
  if i ≤ width ∧ j ≤ height then some (i, height - j) else none

/-- The full `points` list built by `Chart::figures` (lib.rs:486-497) for a
`Points`/`Lines`/`Steps`/`Bars` shape: `filter_map` of `pixelOfSample`
over the samples. -/
def figurePoints (x_scale y_scale : Scale) (width height : ℕ)
    (data : List (ℚ × ℚ)) : List (ℕ × ℕ) :=
  data.filterMap (pixelOfSample x_scale y_scale width height)

/-- Segment list emitted by the `Shape::Steps` arm of `Chart::figures`
(lib.rs:524-538): for each `windows(2)` pair `(x1,y1),(x2,y2)` the code
calls `line(x2, y1, x2, y2)` then `line(x1, y1, x2, y1)`. A segment is
recorded as the 4-tuple of its two pixel endpoints. -/
def stepsSegments : List (ℕ × ℕ) → List (ℕ × ℕ × ℕ × ℕ)
  | p1 :: p2 :: rest =>
    (p2.1, p1.2, p2.1, p2.2) :: (p1.1, p1.2, p2.1, p1.2) :: stepsSegments (p2 :: rest)
  | _ => []

/-- Segment list emitted by the `Shape::Bars` arm of `Chart::figures`
(lib.rs:539-557): per pair, `line(x1,y1,x2,y1)`, `line(x2,y1,x2,y2)`,
`line(x1,height,x1,y1)`, `line(x2,height,x2,y2)`. -/
def barsSegments (height : ℕ) : List (ℕ × ℕ) → List (ℕ × ℕ × ℕ × ℕ)
  | p1 :: p2 :: rest =>
    (p1.1, p1.2, p2.1, p1.2) :: (p2.1, p1.2, p2.1, p2.2) ::
    (p1.1, height, p1.1, p1.2) :: (p2.1, height, p2.1, p2.2) ::
    barsSegments height (p2 :: rest)
  | _ => []

/-- Mirror of enum `ChartRangeMethod` (lib.rs:66-71). -/
inductive ChartRangeMethod where
  | AutoRange
  | FixedRange
  deriving DecidableEq

/-- Mirror of `rgb::RGB8`: three 8-bit channels, modelled as Nat. -/
structure RGB8 where
  r : ℕ
  g : ℕ
  b : ℕ

/-- Values held by `Chart.ymin` / `Chart.ymax`: f32 including the infinite
seeds `f32::INFINITY` / `f32::NEG_INFINITY` used by `Chart::new`
(lib.rs:279-280), modelled as rationals with both infinities adjoined. -/
abbrev YVal := WithBot (WithTop ℚ)

/-- Embed a finite f32 value into `YVal`. -/
def YVal.ofRat (q : ℚ) : YVal := ((q : WithTop ℚ) : YVal)

/-- `f32::INFINITY`, the `ymin` seed of `Chart::new`. -/
def YVal.posInf : YVal := ((⊤ : WithTop ℚ) : YVal)

/-- `f32::NEG_INFINITY`, the `ymax` seed of `Chart::new`. -/
def YVal.negInf : YVal := (⊥ : YVal)

/-- Mirror of enum `Shape` (lib.rs:106-121). -/
inductive Shape where
  | Continuous : (ℚ → ℚ) → Shape
  | Points : List (ℚ × ℚ) → Shape
  | Lines : List (ℚ × ℚ) → Shape
  | Steps : List (ℚ × ℚ) → Shape
  | Bars : List (ℚ × ℚ) → Shape

/-- Mirror of struct `Chart` (lib.rs:74-103), restricted to the fields the
ranging and construction logic reads (the canvas and the style/label/tick
fields are write-only for those paths). -/
structure Chart where
  width : ℕ
  height : ℕ
  xmin : ℚ
  xmax : ℚ
  ymin : YVal
  ymax : YVal
  y_ranging : ChartRangeMethod
  shapes : List (Shape × Option RGB8)

/-- `max_by(partial_cmp)...unwrap_or(&0.0)` over a sample list
(lib.rs:595-598): maximum of a nonempty list, `0.0` when empty. -/
def listMax : List ℚ → ℚ
  | [] => 0
  | x :: xs => xs.foldl max x

/-- `min_by(partial_cmp)...unwrap_or(&0.0)` (lib.rs:599-602). -/
def listMin : List ℚ → ℚ
  | [] => 0
  | x :: xs => xs.foldl min x

/-- The `ys` vector of `Chart::rescale` (lib.rs:567-593): for `Continuous`,
sample the `width` columns through `inv_linear` and keep `y.is_normal()`
values (over Rat, `is_normal` excludes exactly 0, there being no NaN,
infinity or subnormal); for the discrete shapes keep `y` of every sample
with `x` inside `[xmin, xmax]`. -/
def rescaleYs (c : Chart) (s : Shape) : List ℚ :=
  let x_scale : Scale := ⟨(c.xmin, c.xmax), (0, (c.width : ℚ))⟩
  match s with
  | .Continuous f =>
    (List.range c.width).filterMap (fun i =>
      let x := x_scale.inv_linear (i : ℚ)
      let y := f x
      if y ≠ 0 then some y else none)
  | .Points dt | .Lines dt | .Steps dt | .Bars dt =>
    dt.filterMap (fun p => if c.xmin ≤ p.1 ∧ p.1 ≤ c.xmax then some p.2 else none)

/-- Mirror of `Chart::rescale` (lib.rs:567-606): widen `[ymin, ymax]` by the
shape's extrema through `f32::min` / `f32::max`. -/
def Chart.rescale (c : Chart) (s : Shape) : Chart :=
  let ys := rescaleYs c s
  let ymax := listMax ys
  let ymin := listMin ys
  { c with ymin := min c.ymin (YVal.ofRat ymin), ymax := max c.ymax (YVal.ofRat ymax) }

/-- Mirror of `Plot::lineplot` for `Chart` (lib.rs:619-627): push the shape
uncolored, rescale only in `AutoRange` mode. -/
def Chart.lineplot (c : Chart) (s : Shape) : Chart :=
  let c1 : Chart := { c with shapes := c.shapes ++ [(s, none)] }
  if c1.y_ranging = ChartRangeMethod.AutoRange then c1.rescale s else c1

/-- Mirror of `ColorPlot::linecolorplot` for `Chart` (lib.rs:609-617). -/
def Chart.linecolorplot (c : Chart) (s : Shape) (color : RGB8) : Chart :=
  let c1 : Chart := { c with shapes := c.shapes ++ [(s, some color)] }
  if c1.y_ranging = ChartRangeMethod.AutoRange then c1.rescale s else c1

/-- Mirror of `Chart::new` (lib.rs:267-292): the two panics become `none`,
otherwise the auto-ranged chart with infinite `ymin`/`ymax` seeds. -/
def Chart.new (width height : ℕ) (xmin xmax : ℚ) : Option Chart :=
  if width < 32 then none
  else if height < 3 then none
  else some
    { width := width, height := height, xmin := xmin, xmax := xmax,
      ymin := YVal.posInf, ymax := YVal.negInf,
      y_ranging := ChartRangeMethod.AutoRange, shapes := [] }

/-- Mirror of `Chart::new_with_y_range` (lib.rs:299-331). -/
def Chart.new_with_y_range (width height : ℕ) (xmin xmax ymin ymax : ℚ) :
    Option Chart :=
  if width < 32 then none
  else if height < 3 then none
  else some
    { width := width, height := height, xmin := xmin, xmax := xmax,
      ymin := YVal.ofRat ymin, ymax := YVal.ofRat ymax,
      y_ranging := ChartRangeMethod.FixedRange, shapes := [] }

/-- One shape registration: `lineplot` when no color is attached,
`linecolorplot` otherwise. -/
def applyPlot (c : Chart) : Shape × Option RGB8 → Chart
  | (s, none) => c.lineplot s
  | (s, some color) => c.linecolorplot s color

/-- `Scale.linear` with its lets flattened. -/
theorem Scale.linear_def (s : Scale) (x : ℚ) :
    s.linear x =
      min (max (s.range.1 + (x - s.domain.1) / (s.domain.2 - s.domain.1) *
        (s.range.2 - s.range.1)) s.range.1) s.range.2 := rfl

/-- `Scale.inv_linear` with its lets flattened. -/
theorem Scale.inv_linear_def (s : Scale) (i : ℚ) :
    s.inv_linear i =
      min (max (s.domain.1 + (i - s.range.1) / (s.range.2 - s.range.1) *
        (s.domain.2 - s.domain.1)) s.domain.1) s.domain.2 := rfl

/-- Helper: the clamp at the end of `Scale::linear` keeps every output
inside `[range.start, range.end]` whenever that interval is nonempty. -/
theorem linear_mem (s : Scale) (h : s.range.1 ≤ s.range.2) (x : ℚ) :
    s.range.1 ≤ s.linear x ∧ s.linear x ≤ s.range.2 := by
  rw [Scale.linear_def]
  exact ⟨le_min (le_max_right _ _) h, min_le_right _ _⟩

/-- C6: for every Scale whose range is a nonempty interval and every input
`x` (also far outside the domain), `Scale.linear x` lies within
`[r_min, r_max]`. -/
theorem linear_output_clamped (s : Scale) (h : s.range.1 ≤ s.range.2) (x : ℚ) :
    s.range.1 ≤ s.linear x ∧ s.linear x ≤ s.range.2 :=
  linear_mem s h x

/-- Witness for C6 at the scale `[0,10] → [-1,1]` and the out-of-domain
input `x = 100`. -/
theorem linear_output_clamped_witness :
    (Scale.mk (0, 10) (-1, 1)).range.1 ≤ (Scale.mk (0, 10) (-1, 1)).range.2 ∧
    ((Scale.mk (0, 10) (-1, 1)).range.1 ≤ (Scale.mk (0, 10) (-1, 1)).linear 100 ∧
      (Scale.mk (0, 10) (-1, 1)).linear 100 ≤ (Scale.mk (0, 10) (-1, 1)).range.2) :=
  ⟨by norm_num, linear_output_clamped (Scale.mk (0, 10) (-1, 1)) (by norm_num) 100⟩

/-- C5: for every Scale with nondegenerate domain and range, `inv_linear`
undoes `linear` exactly on the whole domain interval (exact rational
arithmetic realises the claim's rounding tolerance as equality). -/
theorem linear_inv_linear_roundtrip (s : Scale) (hd : s.domain.1 < s.domain.2)
    (hr : s.range.1 < s.range.2) (x : ℚ) (hx1 : s.domain.1 ≤ x)
    (hx2 : x ≤ s.domain.2) : s.inv_linear (s.linear x) = x := by
  have hdd : (0 : ℚ) < s.domain.2 - s.domain.1 := sub_pos.mpr hd
  have hrr : (0 : ℚ) < s.range.2 - s.range.1 := sub_pos.mpr hr
  set p := (x - s.domain.1) / (s.domain.2 - s.domain.1) with hp
  have hp0 : 0 ≤ p := div_nonneg (sub_nonneg.mpr hx1) hdd.le
  have hp1 : p ≤ 1 := (div_le_one hdd).mpr (by linarith)
  have hr0 : s.range.1 ≤ s.range.1 + p * (s.range.2 - s.range.1) := by nlinarith
  have hr1 : s.range.1 + p * (s.range.2 - s.range.1) ≤ s.range.2 := by nlinarith
  rw [Scale.linear_def, ← hp, max_eq_left hr0, min_eq_left hr1, Scale.inv_linear_def]
  have hps : (s.range.1 + p * (s.range.2 - s.range.1) - s.range.1) /
      (s.range.2 - s.range.1) = p := by
    field_simp
  rw [hps, hp, div_mul_cancel₀ _ hdd.ne', add_sub_cancel, max_eq_left hx1,
    min_eq_left hx2]

/-- Witness for C5 at the scale `[0,10] → [0,100]` and `x = 3`. -/
theorem linear_inv_linear_roundtrip_witness :
    ((Scale.mk (0, 10) (0, 100)).domain.1 < (Scale.mk (0, 10) (0, 100)).domain.2 ∧
      (Scale.mk (0, 10) (0, 100)).range.1 < (Scale.mk (0, 10) (0, 100)).range.2) ∧
    (Scale.mk (0, 10) (0, 100)).inv_linear ((Scale.mk (0, 10) (0, 100)).linear 3) = 3 :=
  ⟨⟨by norm_num, by norm_num⟩,
    linear_inv_linear_roundtrip (Scale.mk (0, 10) (0, 100)) (by norm_num)
      (by norm_num) 3 (by norm_num) (by norm_num)⟩

/-- C10: whenever `x` lies in none of the half-open intervals between
consecutive samples (in particular past the last sample, or when fewer
than two samples exist), both `interpolate` and `staircase` fall through
their loops and return `0.0`. -/
theorem interpolate_staircase_default_zero (data : List (ℚ × ℚ)) (x : ℚ)
    (h : ∀ q ∈ data.zip data.tail, ¬(q.1.1 ≤ x ∧ x < q.2.1)) :
    interpolate data x = 0 ∧ staircase data x = 0 := by
  induction data with
  | nil => exact ⟨rfl, rfl⟩
  | cons p rest ih =>
    cases rest with
    | nil => exact ⟨rfl, rfl⟩
    | cons p2 rest2 =>
      have hhead : ¬(p.1 ≤ x ∧ x < p2.1) := by
        apply h (p, p2)
        simp
      have htail : ∀ q ∈ (p2 :: rest2).zip rest2, ¬(q.1.1 ≤ x ∧ x < q.2.1) := by
        intro q hq
        apply h q
        rw [List.tail_cons, List.zip_cons_cons]
        exact List.mem_cons_of_mem _ hq
      have hrec := ih htail
      constructor
      · rw [interpolate, if_neg hhead]
        exact hrec.1
      · rw [staircase, if_neg hhead]
        exact hrec.2

/-- Witness for C10 with the samples `[(0,0),(10,10)]` and `x = 20`, past
the last sample. -/
theorem interpolate_staircase_default_zero_witness :
    (∀ q ∈ ([((0 : ℚ), (0 : ℚ)), (10, 10)]).zip ([((0 : ℚ), (0 : ℚ)), (10, 10)]).tail,
      ¬(q.1.1 ≤ (20 : ℚ) ∧ (20 : ℚ) < q.2.1)) ∧
    (interpolate [(0, 0), (10, 10)] 20 = 0 ∧ staircase [(0, 0), (10, 10)] 20 = 0) :=
  ⟨by decide, interpolate_staircase_default_zero [(0, 0), (10, 10)] 20 (by decide)⟩

/-- C1 counterexample: on the accepted pixel pair `(0,0),(5,3)` the Steps
arm emits `line(5,0,5,3)` and `line(0,0,5,0)`; no vertical segment at
`x1 = 0` between `y1 = 0` and `y2 = 3` is drawn in either direction, so
the step does not rise at the left edge. -/
theorem steps_left_edge_cex :
    stepsSegments [(0, 0), (5, 3)] = [(5, 0, 5, 3), (0, 0, 5, 0)] ∧
    (0, 0, 0, 3) ∉ stepsSegments [(0, 0), (5, 3)] ∧
    (0, 3, 0, 0) ∉ stepsSegments [(0, 0), (5, 3)] := by decide

/-- C1 (amended): for every consecutive pair of accepted pixel points
`(x1,y1),(x2,y2)` the Steps arm draws the horizontal segment at height
`y1` from `x1` to `x2` and the vertical segment at `x2` (the right edge)
from `y1` to `y2`, so the step rises/falls at the right edge of each
interval. -/
theorem steps_right_edge (pts : List (ℕ × ℕ)) (p1 p2 : ℕ × ℕ)
    (h : (p1, p2) ∈ pts.zip pts.tail) :
    (p1.1, p1.2, p2.1, p1.2) ∈ stepsSegments pts ∧
    (p2.1, p1.2, p2.1, p2.2) ∈ stepsSegments pts := by
  induction pts with
  | nil => simp at h
  | cons q rest ih =>
    cases rest with
    | nil => simp at h
    | cons q2 rest2 =>
      rw [List.tail_cons, List.zip_cons_cons] at h
      rcases List.mem_cons.mp h with heq | hmem
      · have h1 : p1 = q := congrArg Prod.fst heq
        have h2 : p2 = q2 := congrArg Prod.snd heq
        subst h1
        subst h2
        rw [stepsSegments]
        exact ⟨List.mem_cons_of_mem _ (List.mem_cons_self _ _),
          List.mem_cons_self _ _⟩
      · have hrec := ih hmem
        rw [stepsSegments]
        exact ⟨List.mem_cons_of_mem _ (List.mem_cons_of_mem _ hrec.1),
          List.mem_cons_of_mem _ (List.mem_cons_of_mem _ hrec.2)⟩

/-- Witness for C1 (amended) on the pixel list `[(0,0),(5,3)]`. -/
theorem steps_right_edge_witness :
    ((((0 : ℕ), (0 : ℕ)), ((5 : ℕ), (3 : ℕ))) ∈
      ([((0 : ℕ), (0 : ℕ)), (5, 3)]).zip ([((0 : ℕ), (0 : ℕ)), (5, 3)]).tail) ∧
    ((0, 0, 5, 0) ∈ stepsSegments [(0, 0), (5, 3)] ∧
      (5, 0, 5, 3) ∈ stepsSegments [(0, 0), (5, 3)]) :=
  ⟨by decide, steps_right_edge [(0, 0), (5, 3)] (0, 0) (5, 3) (by decide)⟩

/-- C3, evaluated at the failing input: for the Steps (resp. Bars) shape
with the two accepted pixel points `(0,3),(2,1)` the code emits the
vertical segment `(2,3)-(2,1)` (resp. also `(2,4)-(2,1)`), whose endpoint
is exactly the final point's pixel `(2,1)` — the final point's y-value is
drawn, contradicting the claim and the doc comment on `Shape::Steps` /
`Shape::Bars` (lib.rs:115,119). The windows(2) pass does make N−1 = 1
consecutive-pair group, but each group is 2 (Steps) or 4 (Bars) canvas
segments ending at the final point. -/
theorem steps_final_point_drawn :
    stepsSegments [(0, 3), (2, 1)] = [(2, 3, 2, 1), (0, 3, 2, 3)] ∧
    (2, 3, 2, 1) ∈ stepsSegments [(0, 3), (2, 1)] ∧
    barsSegments 4 [(0, 3), (2, 1)] =
      [(0, 3, 2, 3), (2, 3, 2, 1), (0, 4, 0, 3), (2, 4, 2, 1)] ∧
    (2, 4, 2, 1) ∈ barsSegments 4 [(0, 3), (2, 1)] := by decide

/-- C4 counterexample: the sample `x = 100` on the chart scales
`[0,10] → [0,32]`, `[0,3] → [0,3]` has raw affine pixel image 320, far
beyond the viewport width 32, yet `figures` keeps it: `Scale::linear`
clamps it to pixel column 32 (the viewport edge), and the subsequent
`i <= width && j <= height` check passes — clamped, not dropped. -/
theorem sample_clamped_cex :
    ((0 : ℚ) + (100 - 0) / (10 - 0) * (32 - 0) = 320) ∧
    pixelOfSample (Scale.mk (0, 10) (0, 32)) (Scale.mk (0, 3) (0, 3)) 32 3 (100, 1) =
      some (32, 2) := by
  have h1 : (Scale.mk (0, 10) (0, 32)).linear 100 = 32 := by
    rw [Scale.linear_def]
    norm_num
  have h2 : (Scale.mk (0, 3) (0, 3)).linear 1 = 1 := by
    rw [Scale.linear_def]
    norm_num
  constructor
  · norm_num
  · simp only [pixelOfSample]
    rw [h1, h2]
    norm_num
    rfl

/-- Helper: rounding a rational already inside `[0, n]` gives a Nat index
of at most `n`. -/
theorem roundToNat_le (n : ℕ) (v : ℚ) (_h0 : 0 ≤ v) (h1 : v ≤ (n : ℚ)) :
    (round v).toNat ≤ n := by
  have hle : round v ≤ round ((n : ℚ)) := by
    rw [round_eq, round_eq]
    exact Int.floor_le_floor (by linarith)
  rw [round_natCast] at hle
  omega

/-- C4 (amended): with the viewport scales built by `figures`
(`range = [0,width]` and `[0,height]`), every sample survives the
translation: `Scale::linear` clamps the affine image into the range, the
`i <= width && j <= height` test therefore always passes, and samples
whose raw image exceeds the viewport are kept clamped to the viewport
edge — never dropped. -/
theorem figure_points_never_dropped (x_scale y_scale : Scale) (width height : ℕ)
    (hx : x_scale.range = (0, (width : ℚ))) (hy : y_scale.range = (0, (height : ℚ)))
    (data : List (ℚ × ℚ)) :
    figurePoints x_scale y_scale width height data =
      data.map (fun p => ((round (x_scale.linear p.1)).toNat,
        height - (round (y_scale.linear p.2)).toNat)) := by
  have key : ∀ p : ℚ × ℚ, pixelOfSample x_scale y_scale width height p =
      some ((round (x_scale.linear p.1)).toNat,
        height - (round (y_scale.linear p.2)).toNat) := by
    intro p
    have hxm := linear_mem x_scale (by rw [hx]; exact_mod_cast Nat.cast_nonneg width) p.1
    have hym := linear_mem y_scale (by rw [hy]; exact_mod_cast Nat.cast_nonneg height) p.2
    rw [hx] at hxm
    rw [hy] at hym
    have hi : (round (x_scale.linear p.1)).toNat ≤ width :=
      roundToNat_le width _ hxm.1 hxm.2
    have hj : (round (y_scale.linear p.2)).toNat ≤ height :=
      roundToNat_le height _ hym.1 hym.2
    unfold pixelOfSample
    rw [if_pos ⟨hi, hj⟩]
  induction data with
  | nil => rfl
  | cons p ps ih =>
    rw [figurePoints, List.filterMap_cons_some (key p), List.map_cons]
    rw [figurePoints] at ih
    rw [ih]

/-- Witness for C4 (amended): the far-out sample `(100, 1)` on the
`width = 32`, `height = 3` viewport scales is kept at the edge pixel. -/
theorem figure_points_never_dropped_witness :
    ((Scale.mk (0, 10) (0, 32)).range = (0, ((32 : ℕ) : ℚ)) ∧
      (Scale.mk (0, 3) (0, 3)).range = (0, ((3 : ℕ) : ℚ))) ∧
    figurePoints (Scale.mk (0, 10) (0, 32)) (Scale.mk (0, 3) (0, 3)) 32 3 [(100, 1)] =
      [(100, 1)].map (fun p =>
        ((round ((Scale.mk (0, 10) (0, 32)).linear p.1)).toNat,
          3 - (round ((Scale.mk (0, 3) (0, 3)).linear p.2)).toNat)) :=
  ⟨⟨by norm_num, by norm_num⟩,
    figure_points_never_dropped (Scale.mk (0, 10) (0, 32)) (Scale.mk (0, 3) (0, 3))
      32 3 (by norm_num) (by norm_num) [(100, 1)]⟩

/-- Helper: `rescale`'s y-collection only reads `xmin`, `xmax` and `width`,
so it is unchanged between charts agreeing on those fields. -/
theorem rescaleYs_congr (c c' : Chart) (hx1 : c.xmin = c'.xmin)
    (hx2 : c.xmax = c'.xmax) (hw : c.width = c'.width) (s : Shape) :
    rescaleYs c s = rescaleYs c' s := by
  cases s <;> simp [rescaleYs, hx1, hx2, hw]

/-- Helper: the fields of `lineplot c s` in auto-ranging mode. -/
theorem lineplot_fields (c : Chart) (s : Shape)
    (h : c.y_ranging = ChartRangeMethod.AutoRange) :
    (c.lineplot s).ymin = min c.ymin (YVal.ofRat (listMin (rescaleYs c s))) ∧
    (c.lineplot s).ymax = max c.ymax (YVal.ofRat (listMax (rescaleYs c s))) ∧
    (c.lineplot s).y_ranging = ChartRangeMethod.AutoRange ∧
    (c.lineplot s).xmin = c.xmin ∧ (c.lineplot s).xmax = c.xmax ∧
    (c.lineplot s).width = c.width := by
  have hys : rescaleYs
      { c with
        y_ranging := ChartRangeMethod.AutoRange
        shapes := c.shapes ++ [(s, none)] } s = rescaleYs c s :=
    rescaleYs_congr _ _ rfl rfl rfl s
  simp [Chart.lineplot, Chart.rescale, h, hys]

/-- C7: in auto y-ranging mode, registering shape `a` then `b` via
`lineplot` leaves the same final `ymin` and `ymax` as registering `b`
then `a` — the range update is a fold by the commutative-associative
`f32::min` / `f32::max`. -/
theorem lineplot_order_independent (c : Chart) (a b : Shape)
    (h : c.y_ranging = ChartRangeMethod.AutoRange) :
    ((c.lineplot a).lineplot b).ymin = ((c.lineplot b).lineplot a).ymin ∧
    ((c.lineplot a).lineplot b).ymax = ((c.lineplot b).lineplot a).ymax := by
  obtain ⟨ha1, ha2, ha3, ha4, ha5, ha6⟩ := lineplot_fields c a h
  obtain ⟨hb1, hb2, hb3, hb4, hb5, hb6⟩ := lineplot_fields c b h
  obtain ⟨hab1, hab2, -, -, -, -⟩ := lineplot_fields (c.lineplot a) b ha3
  obtain ⟨hba1, hba2, -, -, -, -⟩ := lineplot_fields (c.lineplot b) a hb3
  have hYab : rescaleYs (c.lineplot a) b = rescaleYs c b :=
    rescaleYs_congr _ _ ha4 ha5 ha6 b
  have hYba : rescaleYs (c.lineplot b) a = rescaleYs c a :=
    rescaleYs_congr _ _ hb4 hb5 hb6 a
  rw [hab1, hab2, hba1, hba2, hYab, hYba, ha1, ha2, hb1, hb2]
  have hmax : ∀ x u v : YVal, max (max x u) v = max (max x v) u := by
    intro x u v
    rw [max_assoc, max_comm u v, ← max_assoc]
  exact ⟨min_right_comm _ _ _, hmax _ _ _⟩

/-- Witness for C7: an auto-ranged chart with two concrete point shapes. -/
theorem lineplot_order_independent_witness :
    (Chart.mk 120 60 (-10) 10 YVal.posInf YVal.negInf
        ChartRangeMethod.AutoRange []).y_ranging = ChartRangeMethod.AutoRange ∧
    ((((Chart.mk 120 60 (-10) 10 YVal.posInf YVal.negInf
          ChartRangeMethod.AutoRange []).lineplot
        (Shape.Points [(1, 5)])).lineplot (Shape.Points [(2, 7)])).ymin =
      (((Chart.mk 120 60 (-10) 10 YVal.posInf YVal.negInf
          ChartRangeMethod.AutoRange []).lineplot
        (Shape.Points [(2, 7)])).lineplot (Shape.Points [(1, 5)])).ymin ∧
      (((Chart.mk 120 60 (-10) 10 YVal.posInf YVal.negInf
          ChartRangeMethod.AutoRange []).lineplot
        (Shape.Points [(1, 5)])).lineplot (Shape.Points [(2, 7)])).ymax =
      (((Chart.mk 120 60 (-10) 10 YVal.posInf YVal.negInf
          ChartRangeMethod.AutoRange []).lineplot
        (Shape.Points [(2, 7)])).lineplot (Shape.Points [(1, 5)])).ymax) :=
  ⟨rfl, lineplot_order_independent _ (Shape.Points [(1, 5)]) (Shape.Points [(2, 7)]) rfl⟩

/-- Helper: a fixed-range chart's `ymin`/`ymax` survive one registration of
either kind, and the mode itself is preserved. -/
theorem fixed_applyPlot (c : Chart) (r : Shape × Option RGB8)
    (h : c.y_ranging = ChartRangeMethod.FixedRange) :
    (applyPlot c r).ymin = c.ymin ∧ (applyPlot c r).ymax = c.ymax ∧
    (applyPlot c r).y_ranging = ChartRangeMethod.FixedRange := by
  obtain ⟨s, oc⟩ := r
  cases oc <;> simp [applyPlot, Chart.lineplot, Chart.linecolorplot, h]

/-- Helper: folding any list of registrations over a fixed-range chart
leaves `ymin`/`ymax` untouched. -/
theorem fixed_foldl (regs : List (Shape × Option RGB8)) :
    ∀ c : Chart, c.y_ranging = ChartRangeMethod.FixedRange →
      (regs.foldl applyPlot c).ymin = c.ymin ∧
      (regs.foldl applyPlot c).ymax = c.ymax := by
  induction regs with
  | nil => exact fun c _ => ⟨rfl, rfl⟩
  | cons r rs ih =>
    intro c h
    obtain ⟨h1, h2, h3⟩ := fixed_applyPlot c r h
    obtain ⟨ih1, ih2⟩ := ih (applyPlot c r) h3
    exact ⟨ih1.trans h1, ih2.trans h2⟩

/-- C8: a chart built by `new_with_y_range` is in fixed mode, and any
sequence of `lineplot` / `linecolorplot` registrations leaves `ymin` and
`ymax` at their construction-time values. -/
theorem fixed_range_preserved (width height : ℕ) (xmin xmax ymin ymax : ℚ)
    (c0 : Chart) (regs : List (Shape × Option RGB8))
    (h : Chart.new_with_y_range width height xmin xmax ymin ymax = some c0) :
    (regs.foldl applyPlot c0).ymin = YVal.ofRat ymin ∧
    (regs.foldl applyPlot c0).ymax = YVal.ofRat ymax := by
  unfold Chart.new_with_y_range at h
  split_ifs at h
  injection h with h'
  subst h'
  exact fixed_foldl regs _ rfl

/-- Witness for C8: `new_with_y_range 32 3 0 1 2 3` followed by one
uncolored and one colored registration. -/
theorem fixed_range_preserved_witness :
    Chart.new_with_y_range 32 3 0 1 2 3 =
      some (Chart.mk 32 3 0 1 (YVal.ofRat 2) (YVal.ofRat 3)
        ChartRangeMethod.FixedRange []) ∧
    (([(Shape.Points [(0, 5)], (none : Option RGB8)),
        (Shape.Lines [(0, 9)], some (RGB8.mk 255 0 0))].foldl applyPlot
        (Chart.mk 32 3 0 1 (YVal.ofRat 2) (YVal.ofRat 3)
          ChartRangeMethod.FixedRange [])).ymin = YVal.ofRat 2 ∧
      ([(Shape.Points [(0, 5)], (none : Option RGB8)),
        (Shape.Lines [(0, 9)], some (RGB8.mk 255 0 0))].foldl applyPlot
        (Chart.mk 32 3 0 1 (YVal.ofRat 2) (YVal.ofRat 3)
          ChartRangeMethod.FixedRange [])).ymax = YVal.ofRat 3) :=
  ⟨rfl, fixed_range_preserved 32 3 0 1 2 3 _ _ rfl⟩

/-- C9: both constructors abort (produce no chart) exactly when
`width < 32` or `height < 3`; in particular `width = 10` fails, and any
viewport with `width ≥ 32` and `height ≥ 3` succeeds. -/
theorem construction_minimums :
    (∀ (width height : ℕ) (xmin xmax : ℚ),
      (Chart.new width height xmin xmax).isNone ↔ (width < 32 ∨ height < 3)) ∧
    (∀ (width height : ℕ) (xmin xmax ymin ymax : ℚ),
      (Chart.new_with_y_range width height xmin xmax ymin ymax).isNone ↔
        (width < 32 ∨ height < 3)) ∧
    (Chart.new 10 60 (-10) 10).isNone = true := by
  refine ⟨?_, ?_, rfl⟩
  · intro width height xmin xmax
    unfold Chart.new
    split_ifs with h1 h2
    · simp [h1]
    · simp [h2]
    · simp [h1, h2]
  · intro width height xmin xmax ymin ymax
    unfold Chart.new_with_y_range
    split_ifs with h1 h2
    · simp [h1]
    · simp [h2]
    · simp [h1, h2]

/-- Witness for C9: instantiation at the below-minimum width 10 and at the
valid viewport 120 × 60. -/
theorem construction_minimums_witness :
    ((Chart.new 10 60 (-10) 10).isNone ↔ ((10 : ℕ) < 32 ∨ (60 : ℕ) < 3)) ∧
    ((Chart.new 120 60 (-10) 10).isNone ↔ ((120 : ℕ) < 32 ∨ (60 : ℕ) < 3)) :=
  ⟨construction_minimums.1 10 60 (-10) 10, construction_minimums.1 120 60 (-10) 10⟩

/-- Helper: one histogram step never changes the number of buckets. -/
theorem histStep_length (mn mx st : ℚ) (acc : List ℕ) (p : ℚ × ℚ) :
    (histStep mn mx st acc p).length = acc.length := by
  simp only [histStep]
  split_ifs <;> simp [List.length_set]

/-- Helper: bumping an in-bounds counter raises the list total by one. -/
theorem sum_set_succ : ∀ (l : List ℕ) (i : ℕ), i < l.length →
    (l.set i (l.getD i 0 + 1)).sum = l.sum + 1 := by
  intro l
  induction l with
  | nil => intro i h; simp at h
  | cons a t ih =>
    intro i h
    cases i with
    | zero => simp [List.sum_cons]; omega
    | succ n =>
      have hn : n < t.length := by simpa using h
      simp only [List.set_cons_succ, List.getD_cons_succ, List.sum_cons, ih n hn]
      omega

/-- Helper: one histogram step adds one to the total exactly when the
sample is inside `[min, max]` and its bucket index is in bounds. -/
theorem histStep_sum (mn mx st : ℚ) (acc : List ℕ) (p : ℚ × ℚ) :
    (histStep mn mx st acc p).sum =
      acc.sum + (if ¬(p.2 < mn ∨ p.2 > mx) ∧
        (⌊(p.2 - mn) / st⌋).toNat < acc.length then 1 else 0) := by
  simp only [histStep]
  by_cases h1 : p.2 < mn ∨ p.2 > mx
  · simp [h1]
  · by_cases h2 : (⌊(p.2 - mn) / st⌋).toNat < acc.length
    · rw [if_neg h1, if_pos h2, sum_set_succ acc _ h2, if_pos ⟨h1, h2⟩]
    · simp [h1, h2]

/-- Helper: the bucket fold preserves the bucket count. -/
theorem foldl_histStep_length (mn mx st : ℚ) (data : List (ℚ × ℚ)) :
    ∀ acc : List ℕ, (data.foldl (histStep mn mx st) acc).length = acc.length := by
  induction data with
  | nil => intro acc; rfl
  | cons p ps ih =>
    intro acc
    rw [List.foldl_cons, ih, histStep_length]

/-- Helper: the bucket fold adds one per counted sample. -/
theorem foldl_histStep_sum (mn mx st : ℚ) (data : List (ℚ × ℚ)) :
    ∀ acc : List ℕ,
      (data.foldl (histStep mn mx st) acc).sum =
        acc.sum + data.countP (fun p => decide (¬(p.2 < mn ∨ p.2 > mx) ∧
          (⌊(p.2 - mn) / st⌋).toNat < acc.length)) := by
  induction data with
  | nil => intro acc; simp
  | cons p ps ih =>
    intro acc
    rw [List.foldl_cons, ih (histStep mn mx st acc p), histStep_sum,
      List.countP_cons]
    simp only [histStep_length, decide_eq_true_eq]
    by_cases hc : ¬(p.2 < mn ∨ p.2 > mx) ∧ (⌊(p.2 - mn) / st⌋).toNat < acc.length
    · simp only [if_pos hc]
      omega
    · simp only [if_neg hc]
      omega

/-- Helper: the histogram of the worked example, evaluated. The sample at
`y = 10 = max` computes bucket index `⌊10 / (10/3)⌋ = 3`, which fails the
`bucket_id < output.len()` test and is silently dropped. -/
theorem histogram_example_eval :
    histogram [(0, 0), (9, 9), (10, 10)] 0 10 2 =
      [(0, 1), (10/3, 0), (20/3, 1)] := by
  norm_num [histogram, histStep, List.foldl_cons, List.foldl_nil, List.set,
    List.getD, List.get?, List.enum, List.enumFrom, List.map_cons, List.map_nil,
    List.replicate]
  decide

/-- C2 counterexample: the spec's example value is wrong — the code yields
`bins + 1 = 3` buckets of width `(max-min)/(bins+1) = 10/3`, namely
`[(0,1), (10/3,0), (20/3,1)]`, not `[(0,1), (5,1)]` (and the in-range
sample at `y = 10` is not counted at all). -/
theorem histogram_example_cex :
    histogram [(0, 0), (9, 9), (10, 10)] 0 10 2 ≠ [(0, 1), (5, 1)] := by
  rw [histogram_example_eval]
  intro hcontra
  simp at hcontra

/-- C2 (amended): `histogram(data, min, max, bins)` has `bins + 1`
equal-width buckets of width `(max - min) / (bins + 1)` over `[min, max]`;
samples outside `[min, max]` are excluded; the bucket counts sum to the
number of samples with `min ≤ y < max` (a sample at exactly `y = max`
falls past the last bucket and is dropped); the worked example evaluates
to `[(0,1), (10/3,0), (20/3,1)]`. -/
theorem histogram_buckets :
    (∀ (data : List (ℚ × ℚ)) (mn mx : ℚ) (bins : ℕ),
      (histogram data mn mx bins).length = bins + 1) ∧
    (∀ (data : List (ℚ × ℚ)) (mn mx : ℚ) (bins : ℕ), mn < mx →
      ((histogram data mn mx bins).map Prod.snd).sum =
        ((data.filter (fun p => decide (mn ≤ p.2 ∧ p.2 < mx))).length : ℚ)) ∧
    histogram [(0, 0), (9, 9), (10, 10)] 0 10 2 =
      [(0, 1), (10/3, 0), (20/3, 1)] := by
  refine ⟨?_, ?_, histogram_example_eval⟩
  · intro data mn mx bins
    simp only [histogram]
    rw [List.length_map, List.enum_length, foldl_histStep_length,
      List.length_replicate]
  · intro data mn mx bins h
    have hstpos : (0 : ℚ) < (mx - mn) / ((bins : ℚ) + 1) :=
      div_pos (sub_pos.mpr h) (by positivity)
    set st := (mx - mn) / ((bins : ℚ) + 1) with hst
    have hratio_top : (mx - mn) / st = (bins : ℚ) + 1 := by
      rw [hst, div_div_eq_mul_div, mul_comm, mul_div_assoc,
        div_self (sub_ne_zero.mpr (ne_of_gt h)), mul_one]
    simp only [histogram, ← hst]
    rw [List.map_map]
    have hcomp : (Prod.snd ∘ fun q : ℕ × ℕ => (mn + (q.1 : ℚ) * st, (q.2 : ℚ))) =
        ((fun n : ℕ => (n : ℚ)) ∘ Prod.snd) := rfl
    rw [hcomp, ← List.map_map, List.enum_map_snd, ← Nat.cast_list_sum,
      foldl_histStep_sum]
    simp only [List.sum_replicate, smul_zero, Nat.zero_add, List.length_replicate]
    have hpred : ∀ p ∈ data,
        (decide (¬(p.2 < mn ∨ p.2 > mx) ∧
          (⌊(p.2 - mn) / st⌋).toNat < bins + 1) = true) ↔
        (decide (mn ≤ p.2 ∧ p.2 < mx) = true) := by
      intro p _
      simp only [decide_eq_true_eq]
      constructor
      · rintro ⟨hin, hb⟩
        push_neg at hin
        obtain ⟨hge, hle⟩ := hin
        refine ⟨hge, ?_⟩
        by_contra hnot
        have hy : p.2 = mx := le_antisymm hle (not_lt.mp hnot)
        rw [hy, hratio_top] at hb
        have hfl : (⌊((bins : ℚ) + 1)⌋ : ℤ) = (bins : ℤ) + 1 := by
          rw [show ((bins : ℚ) + 1) = (((bins + 1 : ℕ)) : ℚ) by push_cast; ring,
            Int.floor_natCast]
          push_cast
          ring
        rw [hfl] at hb
        omega
      · rintro ⟨hy1, hy2⟩
        refine ⟨?_, ?_⟩
        · push_neg
          exact ⟨hy1, le_of_lt hy2⟩
        · have hr : (p.2 - mn) / st < (bins : ℚ) + 1 := by
            rw [← hratio_top]
            exact (div_lt_div_iff_of_pos_right hstpos).mpr (by linarith)
          have hf : ⌊(p.2 - mn) / st⌋ < (bins : ℤ) + 1 :=
            Int.floor_lt.mpr (by push_cast; exact hr)
          omega
    rw [List.countP_congr hpred, List.countP_eq_length_filter]

/-- Witness for C2 (amended): the sum clause instantiated at the worked
example (`mn = 0 < 10 = mx`): the bucket totals sum to 2, the number of
samples with `0 ≤ y < 10`. -/
theorem histogram_buckets_witness :
    ((0 : ℚ) < 10) ∧
    ((histogram [(0, 0), (9, 9), (10, 10)] 0 10 2).map Prod.snd).sum =
      (([((0 : ℚ), (0 : ℚ)), (9, 9), (10, 10)].filter
        (fun p => decide ((0 : ℚ) ≤ p.2 ∧ p.2 < 10))).length : ℚ) :=
  ⟨by norm_num,
    histogram_buckets.2.1 [(0, 0), (9, 9), (10, 10)] 0 10 2 (by norm_num)⟩

end Textplots
